import Mathlib

/-!
Verification of the Sequoia key-store core.

Shallow embedding of the code under `src/`: the `sequoia-core` context and
error types (`src/core/src/lib.rs`), the SKESK session-key envelope
(`src/openpgp/src/skesk.rs`), and the key-pool / store / binding
trust-management protocol whose implementation (the `sequoia-store` crate)
is only reachable through its FFI wrappers in `src/ffi/src/store.rs`; the
missing store implementation is modelled from the specification, as noted
on each such definition.
-/

deriving instance DecidableEq for Except

/-! ## Core: `src/core/src/lib.rs` -/

namespace Core

/-- Coarse model of the kinds of `std::io::Error` that can be wrapped by
the core error type. -/
inductive IoErrorKind where
  | notFound
  | permissionDenied
  | other
deriving DecidableEq

/-- The `Error` enum of `src/core/src/lib.rs` (lines 134-145).  It has a
single variant, `IoError`, wrapping an I/O error. -/
inductive Error where
  | IoError (e : IoErrorKind)
deriving DecidableEq

/-- Name of the variant an `Error` value was built with. -/
def Error.caseName : Error → String
  | .IoError _ => "IoError"

/-- A filesystem path, as its list of components. -/
abbrev Path := List String

/-- The process environment consulted by `Context::configure`:
`env::home_dir()` (may be absent) and `env::temp_dir()`. -/
structure Env where
  homeDir : Option Path
  tempDir : Path
deriving DecidableEq

/-- The `Context` struct of `src/core/src/lib.rs`: exactly the three
fields `domain`, `home` and `lib`.  In particular it carries no network
policy. -/
structure Context where
  domain : String
  home : Path
  lib : Path
deriving DecidableEq

/-- Default installation path returned by the code's PREFIX helper when
the environment variable is unset: `/usr/local`. -/
def prefixDir : Path := ["usr", "local"]

/-- The `Config` builder: a newtype around a `Context`. -/
structure Config where
  ctx : Context
deriving DecidableEq

/-- Model of `Context::configure`: seeds a `Config` with the given domain, home
directory `home_dir().unwrap_or(temp_dir()).join(".sequoia")` and lib
directory `PREFIX/lib/sequoia`.  The domain string is stored verbatim,
with no emptiness check. -/
def Context.configure (domain : String) (env : Env) : Config :=
  ⟨⟨domain, (env.homeDir.getD env.tempDir) ++ [".sequoia"],
    prefixDir ++ ["lib", "sequoia"]⟩⟩

/-- Model of `Config::set_home` / `Config::home`. -/
def Config.setHome (c : Config) (home : Path) : Config :=
  ⟨⟨c.ctx.domain, home, c.ctx.lib⟩⟩

/-- Model of `Config::set_lib` / `Config::lib`. -/
def Config.setLib (c : Config) (lib : Path) : Config :=
  ⟨⟨c.ctx.domain, c.ctx.home, lib⟩⟩

/-- The filesystem, as the set of directories that exist. -/
abbrev FS := List Path

/-- Idealized `fs::create_dir_all`: afterwards the directory exists.
Operating-system failure is abstracted away, so `build` models the
non-failing executions of the code. -/
def createDirAll (fs : FS) (p : Path) : FS :=
  if p ∈ fs then fs else p :: fs

/-- Model of `Config::build`: creates the home directory and returns the finished
`Context` together with the updated filesystem. -/
def Config.build (c : Config) (fs : FS) : Except Error (Context × FS) :=
  .ok (c.ctx, createDirAll fs c.ctx.home)

/-- Model of `Context::new`: `configure` followed by `build`. -/
def Context.new (domain : String) (env : Env) (fs : FS) :
    Except Error (Context × FS) :=
  (Context.configure domain env).build fs

end Core

/-! ## Store model (the `sequoia-store` crate behind `src/ffi/src/store.rs`) -/

namespace KS

/-- Modelled from the spec: the error taxonomy of the store component
(spec section 7).  The `sequoia-store` crate itself is not under `src/`;
only its FFI callers in `src/ffi/src/store.rs` are. -/
inductive StoreError where
  | InvalidKeyMaterial
  | Conflict
  | PolicyMismatch
  | NotFound
  | TransportError
  | StorageFailure
deriving DecidableEq

/-- Modelled from the spec: a transferable public key as the store sees
it: a fingerprint, the set of packets it carries (merge is packet union,
delegated to the external key algebra, spec section 6), and the set of
fingerprints of keys that have issued a cryptographically valid
delegation/rotation signature over this TPK. -/
structure TPK where
  fp : Nat
  packets : Finset Nat
  sigs : Finset Nat
deriving DecidableEq

/-- Modelled from the spec: merge of two TPKs (union of packets; the
external key algebra's normalization is abstracted as set union).  The
fingerprint of the left argument is kept. -/
def TPK.merge (a b : TPK) : TPK :=
  ⟨a.fp, a.packets ∪ b.packets, a.sigs ∪ b.sigs⟩

/-- The key pool: association list from fingerprint to TPK material. -/
abbrev Pool := List (Nat × TPK)

/-- Look up the pool entry with the given fingerprint. -/
def lookupFp (p : Pool) (f : Nat) : Option TPK :=
  (p.find? (fun e => e.1 == f)).map (fun e => e.2)

/-- Replace the entry at fingerprint `f` by `m` (in-place pool merge). -/
def updateAt (p : Pool) (f : Nat) (m : TPK) : Pool :=
  p.map (fun e => if e.1 = f then (f, m) else e)

/-- Modelled from the spec: `Pool.get_or_create(fingerprint, tpk)` (spec
section 4.1): returns the canonical key for `f`, merging `t` into the
existing entry if present, or creating a fresh entry. -/
def getOrCreate (p : Pool) (f : Nat) (t : TPK) : TPK × Pool :=
  match lookupFp p f with
  | some e => (e.merge t, updateAt p f (e.merge t))
  | none => (t, (f, t) :: p)

/-- Pool invariant: each fingerprint occurs at most once among the
entries. -/
def poolInv (p : Pool) : Prop := (p.map Prod.fst).Nodup

/-- State of one binding together with the pool it references: the pool
and the fingerprint currently bound, if any. -/
structure BState where
  pool : Pool
  bound : Option Nat
deriving DecidableEq

/-- Material of the currently bound key, as returned by the binding's
`tpk()` accessor. -/
def BState.tpk (s : BState) : Option TPK :=
  s.bound.bind (lookupFp s.pool)

/-- Modelled from the spec: `Binding.import(candidate)` (spec section
4.3), the conflict-resolution protocol of `sequoia_store::Binding`
behind the FFI wrapper `sq_binding_import`.  Returns the resulting
material or an error, together with the successor state. -/
def BState.importTpk (s : BState) (t : TPK) :
    Except StoreError TPK × BState :=
  match s.bound with
  | none =>
    let r := getOrCreate s.pool t.fp t
    (.ok r.1, ⟨r.2, some t.fp⟩)
  | some f =>
    match lookupFp s.pool f with
    | none => (.error .NotFound, s)
    | some cur =>
      if t.fp = f then
        let r := getOrCreate s.pool t.fp t
        (.ok r.1, ⟨r.2, some f⟩)
      else if cur.fp ∈ t.sigs then
        let r := getOrCreate s.pool t.fp t
        (.ok r.1, ⟨r.2, some t.fp⟩)
      else
        (.error .Conflict, s)

/-- Modelled from the spec: `Binding.rotate(candidate)` (spec section
4.3), behind the FFI wrapper `sq_binding_rotate`: unconditionally
rebinds to the candidate's fingerprint via `Pool.get_or_create`,
merging with an existing pool entry of that fingerprint. -/
def BState.rotate (s : BState) (t : TPK) : TPK × BState :=
  let r := getOrCreate s.pool t.fp t
  (r.1, ⟨r.2, some t.fp⟩)

/-- Modelled from the spec: `Key.import(candidate)` (spec section 4.4),
behind the FFI wrapper `sq_key_import`: fingerprint-equal merge only,
`Conflict` whenever the fingerprints differ.  The key handle is the
fingerprint `f` of the pool entry. -/
def keyImportTpk (p : Pool) (f : Nat) (t : TPK) :
    Except StoreError TPK × Pool :=
  match lookupFp p f with
  | none => (.error .NotFound, p)
  | some cur =>
    if t.fp = f then
      (.ok (cur.merge t), updateAt p f (cur.merge t))
    else
      (.error .Conflict, p)

/-- Modelled from the spec: the ordered network-policy levels (spec
section 3). -/
inductive NetworkPolicy where
  | Offline
  | Anonymized
  | Encrypted
  | Insecure
deriving DecidableEq

/-- Modelled from the spec: the server-side context under which stores
are opened: the caller's domain and current network policy. -/
structure SrvContext where
  domain : String
  policy : NetworkPolicy
deriving DecidableEq

/-- The table of existing stores: (domain, name) keys with the policy
each store was created under. -/
abbrev StoreDB := List ((String × String) × NetworkPolicy)

/-- Modelled from the spec: `Store::open` / `open_or_create` (spec
section 4.2), behind the FFI wrapper `sq_store_open`: create a store
with the context's policy when absent; when present, fail with
`PolicyMismatch` if the context's policy differs from the creation
policy, leaving the table unchanged. -/
def openOrCreate (ctx : SrvContext) (name : String) (db : StoreDB) :
    Except StoreError NetworkPolicy × StoreDB :=
  match db.find? (fun e => e.1 == (ctx.domain, name)) with
  | some e =>
    if e.2 = ctx.policy then (.ok e.2, db)
    else (.error .PolicyMismatch, db)
  | none =>
    (.ok ctx.policy, ((ctx.domain, name), ctx.policy) :: db)

end KS

/-! ## OpenPGP: `src/openpgp/src/skesk.rs` -/

namespace Pgp

/-- Errors of the openpgp crate reachable from `SKESK`: the
`InvalidOperation` raised in `decrypt`, plus the failure modes of the
modelled collaborators (the error enum itself is outside `src/`). -/
inductive PError where
  | InvalidOperation (msg : String)
  | UnsupportedSymmetricAlgorithm
  | MalformedS2K
deriving DecidableEq

/-- Modelled from the spec: symmetric-algorithm identifiers.  The
constants module is not under `src/` (the spec, section 1, places the
envelope's collaborators out of scope); RFC 4880 identifiers are used:
AES128 is 7, AES192 is 8, AES256 is 9, other identifiers are
`Unknown`. -/
inductive SymmetricAlgorithm where
  | AES128
  | AES192
  | AES256
  | Unknown (id : Nat)
deriving DecidableEq

/-- Conversion to the wire octet, as in `algo.into()`. -/
def SymmetricAlgorithm.toU8 : SymmetricAlgorithm → Nat
  | .AES128 => 7
  | .AES192 => 8
  | .AES256 => 9
  | .Unknown i => i

/-- Conversion from the wire octet, as in `SymmetricAlgorithm::from`. -/
def SymmetricAlgorithm.ofU8 (i : Nat) : SymmetricAlgorithm :=
  if i = 7 then .AES128
  else if i = 8 then .AES192
  else if i = 9 then .AES256
  else .Unknown i

/-- Modelled from the spec: `key_size()` of the external constants
module; fails for unknown algorithms. -/
def SymmetricAlgorithm.keySize : SymmetricAlgorithm → Except PError Nat
  | .AES128 => .ok 16
  | .AES192 => .ok 24
  | .AES256 => .ok 32
  | .Unknown _ => .error .UnsupportedSymmetricAlgorithm

/-- Modelled from the spec: `block_size()` of the external constants
module; fails for unknown algorithms. -/
def SymmetricAlgorithm.blockSize : SymmetricAlgorithm → Except PError Nat
  | .AES128 => .ok 16
  | .AES192 => .ok 16
  | .AES256 => .ok 16
  | .Unknown _ => .error .UnsupportedSymmetricAlgorithm

/-- Modelled from the spec: the S2K key-derivation specifiers of the
external `s2k` module: `Simple`, `Salted` and `Iterated` derive a key
deterministically from the password; `Unknown` specifiers fail. -/
inductive S2K where
  | Simple (hash : Nat)
  | Salted (hash : Nat) (salt : List Nat)
  | Iterated (hash : Nat) (salt : List Nat) (count : Nat)
  | Unknown (tag : Nat)
deriving DecidableEq

/-- Deterministic seed mixing the specifier and the password (an
abstract stand-in for the hash; only determinism in the specifier,
password and key size matters for the proofs). -/
def S2K.seed : S2K → List Nat → Nat
  | .Simple h, pw => h + pw.sum + pw.length
  | .Salted h salt, pw => h * 3 + salt.sum + pw.sum + pw.length
  | .Iterated h salt c, pw => h * 5 + salt.sum + c + pw.sum + pw.length
  | .Unknown t, pw => t + pw.sum

/-- Modelled from the spec: `S2K::derive_key(password, key_size)`:
derives `size` key octets, deterministically in all inputs; fails on an
`Unknown` specifier. -/
def S2K.deriveKey : S2K → List Nat → Nat → Except PError (List Nat)
  | .Unknown _, _, _ => .error .MalformedS2K
  | s, pw, size => .ok ((List.range size).map (fun i => (s.seed pw + i) % 256))

/-- Modelled from the spec: the keyed block function used by the CFB
mode.  CFB uses the block cipher only in the forward direction, so any
length-preserving keyed function is a faithful model. -/
def blockE (key block : List Nat) : List Nat :=
  block.map (fun x => (x + key.sum * 131 + key.length) % 256)

/-- One CFB encryption pass over `pt` in chunks of `bs` octets,
threading the IV exactly as the chunk loop of `SKESK::new` does: the
keystream for a chunk is the block function of the previous ciphertext
chunk (initially the zero IV), and the ciphertext chunk is the
octet-wise XOR.  `fuel` bounds the recursion; `pt.length` steps always
suffice for a positive block size. -/
def cfbEncAux (key : List Nat) (bs : Nat) :
    Nat → List Nat → List Nat → List Nat
  | _, _, [] => []
  | 0, _, _ => []
  | fuel + 1, iv, a :: rest =>
    let ks := blockE key iv
    let ct := List.zipWith Nat.xor ((a :: rest).take bs) ks
    ct ++ cfbEncAux key bs fuel ct ((a :: rest).drop bs)

/-- CFB encryption of a whole plaintext. -/
def cfbEnc (key : List Nat) (bs : Nat) (iv pt : List Nat) : List Nat :=
  cfbEncAux key bs pt.length iv pt

/-- One CFB decryption pass, mirroring the chunk loop of
`SKESK::decrypt`: the keystream is the block function of the previous
ciphertext chunk, and the next IV is the current ciphertext chunk. -/
def cfbDecAux (key : List Nat) (bs : Nat) :
    Nat → List Nat → List Nat → List Nat
  | _, _, [] => []
  | 0, _, _ => []
  | fuel + 1, iv, a :: rest =>
    let ks := blockE key iv
    let pl := List.zipWith Nat.xor ((a :: rest).take bs) ks
    pl ++ cfbDecAux key bs fuel ((a :: rest).take bs) ((a :: rest).drop bs)

/-- CFB decryption of a whole ciphertext. -/
def cfbDec (key : List Nat) (bs : Nat) (iv ct : List Nat) : List Nat :=
  cfbDecAux key bs ct.length iv ct

/-- The `SKESK` packet of `src/openpgp/src/skesk.rs`.  The `common` CTB
field is omitted: it is always `Default::default()` and plays no role in
`new` or `decrypt`. -/
structure SKESK where
  version : Nat
  symm_algo : SymmetricAlgorithm
  s2k : S2K
  esk : List Nat
deriving DecidableEq

/-- Model of `SKESK::new`: derive a key from the password via the S2K, prefix the
algorithm octet to the session key, CFB-encrypt with a zero IV, and
build a version-4 packet. -/
def SKESK.new (algo : SymmetricAlgorithm) (s2k : S2K)
    (session_key password : List Nat) : Except PError SKESK :=
  match algo.keySize with
  | .error e => .error e
  | .ok ksz =>
    match s2k.deriveKey password ksz with
    | .error e => .error e
    | .ok key =>
      match algo.blockSize with
      | .error e => .error e
      | .ok bs =>
        let iv := List.replicate bs 0
        let psk := algo.toU8 :: session_key
        let esk := cfbEnc key bs iv psk
        .ok ⟨4, algo, s2k, esk⟩

/-- Model of `SKESK::decrypt`: derive the key from the password; with an empty
ESK return the derived key directly, rejecting a `Simple` S2K with
`InvalidOperation`; otherwise CFB-decrypt the ESK with a zero IV and
split the algorithm octet off the front. -/
def SKESK.decrypt (p : SKESK) (password : List Nat) :
    Except PError (SymmetricAlgorithm × List Nat) :=
  match p.symm_algo.keySize with
  | .error e => .error e
  | .ok ksz =>
    match p.s2k.deriveKey password ksz with
    | .error e => .error e
    | .ok key =>
      if p.esk.length = 0 then
        match p.s2k with
        | .Simple _ =>
          .error (.InvalidOperation "SKESK: Cannot use Simple S2K without ESK")
        | _ => .ok (p.symm_algo, key)
      else
        match p.symm_algo.blockSize with
        | .error e => .error e
        | .ok bs =>
          let iv := List.replicate bs 0
          let plain := cfbDec key bs iv p.esk
          .ok (SymmetricAlgorithm.ofU8 (plain.headD 0), plain.drop 1)

end Pgp

/-! ## Helper lemmas for the pool and binding model -/

open KS

theorem KS.updateAt_map_fst (p : Pool) (f : Nat) (m : TPK) :
    (updateAt p f m).map Prod.fst = p.map Prod.fst := by
  induction p with
  | nil => rfl
  | cons e p ih =>
    simp only [updateAt, List.map_cons] at ih ⊢
    by_cases h : e.1 = f
    · simp [h, ih]
    · simp [h, ih]

theorem KS.updateAt_length (p : Pool) (f : Nat) (m : TPK) :
    (updateAt p f m).length = p.length := by
  simp [updateAt]

theorem KS.lookupFp_updateAt (p : Pool) (f : Nat) (m : TPK)
    (h : (lookupFp p f).isSome) :
    lookupFp (updateAt p f m) f = some m := by
  induction p with
  | nil => simp [lookupFp] at h
  | cons e p ih =>
    by_cases he : e.1 = f
    · simp [lookupFp, updateAt, List.find?, he]
    · have hb : (e.1 == f) = false := by simp [he]
      simp only [lookupFp, updateAt, List.map_cons, if_neg he,
        List.find?, hb] at h ⊢
      exact ih h

theorem KS.lookupFp_getOrCreate (p : Pool) (f : Nat) (t : TPK) :
    lookupFp (getOrCreate p f t).2 f = some (getOrCreate p f t).1 := by
  cases h : lookupFp p f with
  | some e =>
    simp only [getOrCreate, h]
    exact lookupFp_updateAt p f _ (by simp [h])
  | none =>
    simp only [getOrCreate, h]
    simp [lookupFp, List.find?]

theorem KS.mem_fst_of_lookupFp (p : Pool) (f : Nat)
    (h : (lookupFp p f).isSome) : f ∈ p.map Prod.fst := by
  induction p with
  | nil => simp [lookupFp] at h
  | cons e p ih =>
    by_cases he : e.1 = f
    · simp only [List.map_cons]
      exact List.mem_cons.mpr (Or.inl he.symm)
    · have hb : (e.1 == f) = false := by simp [he]
      simp only [lookupFp, List.find?, hb] at h
      exact List.mem_cons_of_mem _ (ih h)

theorem KS.not_mem_fst_of_lookupFp_none (p : Pool) (f : Nat)
    (h : lookupFp p f = none) : f ∉ p.map Prod.fst := by
  intro hm
  obtain ⟨e, he, hfe⟩ := List.mem_map.mp hm
  have hf : List.find? (fun e => e.1 == f) p = none := by
    simpa [lookupFp, Option.map_eq_none'] using h
  have hne := List.find?_eq_none.mp hf e he
  simp [hfe] at hne

theorem KS.countP_fst_eq (p : Pool) (f : Nat) :
    p.countP (fun e => e.1 == f) =
      (p.map Prod.fst).countP (fun x => x == f) := by
  induction p with
  | nil => rfl
  | cons e p ih => simp [List.countP_cons, ih]

theorem KS.nodup_countP_eq_one (l : List Nat) (f : Nat) (hn : l.Nodup)
    (hm : f ∈ l) : l.countP (fun x => x == f) = 1 := by
  induction l with
  | nil => simp at hm
  | cons a l ih =>
    by_cases haf : a = f
    · subst haf
      have hz : l.countP (fun x => x == a) = 0 := by
        apply List.countP_eq_zero.mpr
        intro x hx
        simp only [beq_iff_eq]
        exact fun hxf => (List.nodup_cons.mp hn).1 (hxf ▸ hx)
      simp [List.countP_cons, hz]
    · have hm' : f ∈ l := by
        rcases List.mem_cons.mp hm with h1 | h1
        · exact absurd h1.symm haf
        · exact h1
      simp [List.countP_cons, ih (List.nodup_cons.mp hn).2 hm', haf]

theorem KS.TPK.merge_absorb (a t : TPK) : (a.merge t).merge t = a.merge t := by
  simp [TPK.merge, Finset.union_assoc]

theorem KS.TPK.merge_self (t : TPK) : t.merge t = t := by
  simp [TPK.merge]

theorem KS.getOrCreate_fst_absorb (p : Pool) (f : Nat) (t : TPK) :
    ((getOrCreate p f t).1).merge t = (getOrCreate p f t).1 := by
  cases h : lookupFp p f <;>
    simp [getOrCreate, h, KS.TPK.merge_absorb, KS.TPK.merge_self]

theorem KS.import_after_getOrCreate (pool : Pool) (t : TPK) :
    ∃ q, BState.importTpk ⟨(getOrCreate pool t.fp t).2, some t.fp⟩ t =
      (.ok (getOrCreate pool t.fp t).1, ⟨q, some t.fp⟩) := by
  have hl := lookupFp_getOrCreate pool t.fp t
  have habs := getOrCreate_fst_absorb pool t.fp t
  set m := (getOrCreate pool t.fp t).1 with hm
  set P := (getOrCreate pool t.fp t).2 with hP
  refine ⟨updateAt P t.fp (m.merge t), ?_⟩
  simp only [BState.importTpk, hl]
  rw [if_pos trivial]
  conv_lhs => rw [getOrCreate, hl]
  simp [habs]

/-! ## Claim theorems: store and binding protocol -/

/-- Claim C1: when a binding currently holds a key, importing a
candidate whose fingerprint differs from the bound key's fingerprint and
which carries no valid signature issued by the current key fails with
`Conflict` and leaves the binding completely unchanged: the state, the
bound fingerprint, and the material returned by `tpk()` are those from
before. -/
theorem binding_import_conflict_unchanged
    (s : BState) (t : TPK) (f : Nat) (cur : TPK)
    (hb : s.bound = some f) (hc : lookupFp s.pool f = some cur)
    (hfp : t.fp ≠ f) (hsig : cur.fp ∉ t.sigs) :
    (s.importTpk t).1 = .error .Conflict ∧
    (s.importTpk t).2 = s ∧
    (s.importTpk t).2.bound = some f ∧
    (s.importTpk t).2.tpk = some cur := by
  have h1 : s.importTpk t = (.error .Conflict, s) := by
    simp [BState.importTpk, hb, hc, hfp, hsig]
  rw [h1]
  exact ⟨rfl, rfl, hb, by simp [BState.tpk, hb, hc]⟩

/-- Witness for C1 at a concrete bound key and unrelated candidate. -/
theorem binding_import_conflict_unchanged_witness :
    ((⟨[(1, ⟨1, {10}, ∅⟩)], some 1⟩ : BState).importTpk ⟨2, {20}, ∅⟩).1 =
      .error .Conflict ∧
    ((⟨[(1, ⟨1, {10}, ∅⟩)], some 1⟩ : BState).importTpk ⟨2, {20}, ∅⟩).2 =
      (⟨[(1, ⟨1, {10}, ∅⟩)], some 1⟩ : BState) ∧
    ((⟨[(1, ⟨1, {10}, ∅⟩)], some 1⟩ : BState).importTpk ⟨2, {20}, ∅⟩).2.bound =
      some 1 ∧
    ((⟨[(1, ⟨1, {10}, ∅⟩)], some 1⟩ : BState).importTpk ⟨2, {20}, ∅⟩).2.tpk =
      some ⟨1, {10}, ∅⟩ :=
  binding_import_conflict_unchanged _ _ 1 ⟨1, {10}, ∅⟩ rfl (by decide)
    (by decide) (by decide)

/-- Claim C2: on a pool in which every fingerprint occurs at most once,
`get_or_create` preserves that invariant, leaves exactly one entry with
fingerprint `f` which is the returned key, and a repeated call with the
same fingerprint does not create a second entry but merges the supplied
material into the same key. -/
theorem pool_get_or_create_unique (p : Pool) (f : Nat) (t : TPK)
    (h : poolInv p) :
    poolInv (getOrCreate p f t).2 ∧
    (getOrCreate p f t).2.countP (fun e => e.1 == f) = 1 ∧
    lookupFp (getOrCreate p f t).2 f = some (getOrCreate p f t).1 ∧
    (getOrCreate (getOrCreate p f t).2 f t).2.length =
      (getOrCreate p f t).2.length ∧
    (getOrCreate (getOrCreate p f t).2 f t).1 =
      (getOrCreate p f t).1.merge t := by
  have hgc : getOrCreate (getOrCreate p f t).2 f t =
      ((getOrCreate p f t).1.merge t,
       updateAt (getOrCreate p f t).2 f ((getOrCreate p f t).1.merge t)) := by
    conv_lhs => rw [getOrCreate, KS.lookupFp_getOrCreate p f t]
  refine ⟨?_, ?_, KS.lookupFp_getOrCreate p f t, ?_, ?_⟩
  · cases hl : lookupFp p f with
    | some e =>
      simp only [getOrCreate, hl]
      show ((updateAt p f (e.merge t)).map Prod.fst).Nodup
      rw [KS.updateAt_map_fst]
      exact h
    | none =>
      simp only [getOrCreate, hl]
      show (((f, t) :: p).map Prod.fst).Nodup
      simp only [List.map_cons]
      exact List.nodup_cons.mpr ⟨KS.not_mem_fst_of_lookupFp_none p f hl, h⟩
  · rw [KS.countP_fst_eq]
    cases hl : lookupFp p f with
    | some e =>
      have hmem : f ∈ p.map Prod.fst :=
        KS.mem_fst_of_lookupFp p f (by simp [hl])
      simp only [getOrCreate, hl, KS.updateAt_map_fst]
      exact KS.nodup_countP_eq_one _ f h hmem
    | none =>
      have h0 : (p.map Prod.fst).countP (fun x => x == f) = 0 := by
        apply List.countP_eq_zero.mpr
        intro x hx
        simp only [beq_iff_eq]
        exact fun hxf => KS.not_mem_fst_of_lookupFp_none p f hl (hxf ▸ hx)
      simp [getOrCreate, hl, List.countP_cons, h0]
  · rw [hgc]
    exact KS.updateAt_length _ _ _
  · rw [hgc]

/-- Witness for C2 starting from the empty pool. -/
theorem pool_get_or_create_unique_witness :
    poolInv (getOrCreate [] 1 ⟨1, {10}, ∅⟩).2 ∧
    (getOrCreate [] 1 ⟨1, {10}, ∅⟩).2.countP (fun e => e.1 == 1) = 1 ∧
    lookupFp (getOrCreate [] 1 ⟨1, {10}, ∅⟩).2 1 =
      some (getOrCreate [] 1 ⟨1, {10}, ∅⟩).1 ∧
    (getOrCreate (getOrCreate [] 1 ⟨1, {10}, ∅⟩).2 1 ⟨1, {10}, ∅⟩).2.length =
      (getOrCreate [] 1 ⟨1, {10}, ∅⟩).2.length ∧
    (getOrCreate (getOrCreate [] 1 ⟨1, {10}, ∅⟩).2 1 ⟨1, {10}, ∅⟩).1 =
      (getOrCreate [] 1 ⟨1, {10}, ∅⟩).1.merge ⟨1, {10}, ∅⟩ :=
  pool_get_or_create_unique [] 1 ⟨1, {10}, ∅⟩ (by unfold poolInv; decide)

/-- Claim C3: `rotate` succeeds unconditionally (it is total on every
binding state and candidate): it rebinds to the candidate's fingerprint,
returns the material `Pool.get_or_create(candidate.fingerprint,
candidate)` produces (the merge with an existing pool entry of that
fingerprint, or the candidate itself), and afterwards `tpk()` returns
exactly the returned material. -/
theorem binding_rotate_unconditional (s : BState) (t : TPK) :
    (s.rotate t).2.bound = some t.fp ∧
    (s.rotate t).2.tpk = some (s.rotate t).1 ∧
    (s.rotate t).1 = (match lookupFp s.pool t.fp with
                      | some e => e.merge t
                      | none => t) := by
  refine ⟨rfl, ?_, ?_⟩
  · simp [BState.rotate, BState.tpk, KS.lookupFp_getOrCreate]
  · cases h : lookupFp s.pool t.fp <;> simp [BState.rotate, getOrCreate, h]

/-- Claim C4: `Key.import` merges only when the candidate's fingerprint
equals the stored key's, fails with `Conflict` (pool untouched) whenever
the fingerprints differ, and can never rotate: any successful outcome
implies the fingerprints were equal. -/
theorem key_import_fingerprint_guard (p : Pool) (f : Nat) (cur t : TPK)
    (hc : lookupFp p f = some cur) :
    (t.fp ≠ f → keyImportTpk p f t = (.error .Conflict, p)) ∧
    (t.fp = f → keyImportTpk p f t =
      (.ok (cur.merge t), updateAt p f (cur.merge t))) ∧
    (∀ m q, keyImportTpk p f t = (.ok m, q) → t.fp = f) := by
  refine ⟨fun hne => by simp [keyImportTpk, hc, hne],
          fun heq => by simp [keyImportTpk, hc, heq],
          fun m q hok => ?_⟩
  by_cases heq : t.fp = f
  · exact heq
  · simp [keyImportTpk, hc, heq] at hok

/-- Witness for C4: a conflicting and a fingerprint-equal import against
a concrete stored key. -/
theorem key_import_fingerprint_guard_witness :
    keyImportTpk [(1, ⟨1, {10}, ∅⟩)] 1 ⟨2, {20}, ∅⟩ =
      (.error .Conflict, [(1, ⟨1, {10}, ∅⟩)]) ∧
    keyImportTpk [(1, ⟨1, {10}, ∅⟩)] 1 ⟨1, {11}, ∅⟩ =
      (.ok (TPK.merge ⟨1, {10}, ∅⟩ ⟨1, {11}, ∅⟩),
       updateAt [(1, ⟨1, {10}, ∅⟩)] 1 (TPK.merge ⟨1, {10}, ∅⟩ ⟨1, {11}, ∅⟩)) :=
  ⟨(key_import_fingerprint_guard [(1, ⟨1, {10}, ∅⟩)] 1 ⟨1, {10}, ∅⟩
      ⟨2, {20}, ∅⟩ (by decide)).1 (by decide),
   (key_import_fingerprint_guard [(1, ⟨1, {10}, ∅⟩)] 1 ⟨1, {10}, ∅⟩
      ⟨1, {11}, ∅⟩ (by decide)).2.1 rfl⟩

/-- Claim C5: opening an existing store under a context whose policy
differs from the store's creation policy fails with `PolicyMismatch`,
leaving the store table (hence the store's policy) unchanged; opening a
nonexistent store creates it with the calling context's current
policy. -/
theorem store_open_or_create_policy (ctx : SrvContext) (name : String)
    (db : StoreDB) (e : (String × String) × NetworkPolicy) :
    (db.find? (fun x => x.1 == (ctx.domain, name)) = some e →
      e.2 ≠ ctx.policy →
      openOrCreate ctx name db = (.error .PolicyMismatch, db)) ∧
    (db.find? (fun x => x.1 == (ctx.domain, name)) = none →
      openOrCreate ctx name db =
        (.ok ctx.policy, ((ctx.domain, name), ctx.policy) :: db)) := by
  constructor
  · intro hf hne
    simp [openOrCreate, hf, hne]
  · intro hf
    simp [openOrCreate, hf]

/-- Witness for C5: a policy mismatch on an existing store and a
creation under the caller's policy. -/
theorem store_open_or_create_policy_witness :
    openOrCreate ⟨"d", .Offline⟩ "s" [(("d", "s"), .Encrypted)] =
      (.error .PolicyMismatch, [(("d", "s"), .Encrypted)]) ∧
    openOrCreate ⟨"d", .Offline⟩ "s" [] =
      (.ok NetworkPolicy.Offline, [(("d", "s"), NetworkPolicy.Offline)]) :=
  ⟨(store_open_or_create_policy ⟨"d", .Offline⟩ "s" [(("d", "s"), .Encrypted)]
      (("d", "s"), .Encrypted)).1 (by decide) (by decide),
   (store_open_or_create_policy ⟨"d", .Offline⟩ "s" []
      (("d", "s"), .Encrypted)).2 (by decide)⟩

/-- Claim C6: importing the same TPK twice in succession yields the same
resulting material both times: if the first import succeeds with
material `m`, the second import succeeds and returns `m` again. -/
theorem binding_import_idempotent (s : BState) (t : TPK) (m : TPK)
    (s₁ : BState) (h : s.importTpk t = (.ok m, s₁)) :
    (s₁.importTpk t).1 = .ok m := by
  cases hb : s.bound with
  | none =>
    simp only [BState.importTpk, hb] at h
    injection h with hm hs
    obtain ⟨q, hq⟩ := KS.import_after_getOrCreate s.pool t
    rw [← hs, hq]
    exact hm
  | some f =>
    cases hc : lookupFp s.pool f with
    | none => simp [BState.importTpk, hb, hc] at h
    | some cur =>
      by_cases hfp : t.fp = f
      · subst hfp
        simp only [BState.importTpk, hb, hc, eq_self_iff_true, if_true] at h
        injection h with hm hs
        obtain ⟨q, hq⟩ := KS.import_after_getOrCreate s.pool t
        rw [← hs, hq]
        exact hm
      · by_cases hsig : cur.fp ∈ t.sigs
        · simp only [BState.importTpk, hb, hc, if_neg hfp, if_pos hsig] at h
          injection h with hm hs
          obtain ⟨q, hq⟩ := KS.import_after_getOrCreate s.pool t
          rw [← hs, hq]
          exact hm
        · simp [BState.importTpk, hb, hc, hfp, hsig] at h

/-- Witness for C6: importing into a fresh binding and then again. -/
theorem binding_import_idempotent_witness :
    ((⟨[(1, ⟨1, {5}, ∅⟩)], some 1⟩ : BState).importTpk ⟨1, {5}, ∅⟩).1 =
      .ok ⟨1, {5}, ∅⟩ :=
  binding_import_idempotent ⟨[], none⟩ ⟨1, {5}, ∅⟩ ⟨1, {5}, ∅⟩
    ⟨[(1, ⟨1, {5}, ∅⟩)], some 1⟩ (by decide)

/-! ## Claim theorems: core context and error type -/

/-- Claim C7 (counterexample): `Context::configure("")` followed by
`build` succeeds and yields a context whose domain is the empty string,
so a successfully constructed context need not have a non-empty domain;
the `Context` type also carries no network-policy field that
construction could populate. -/
theorem context_empty_domain_cex :
    (Core.Context.configure "" ⟨some ["home"], ["tmp"]⟩).build [] =
      .ok (⟨"", ["home", ".sequoia"], ["usr", "local", "lib", "sequoia"]⟩,
           [["home", ".sequoia"]]) ∧
    (⟨"", ["home", ".sequoia"],
      ["usr", "local", "lib", "sequoia"]⟩ : Core.Context).domain = "" := by
  constructor
  · decide
  · rfl

/-- Claim C7 (amended): every successfully constructed context has its
home directory present in the filesystem afterwards, and stores the
configured domain verbatim (which may be empty); no network policy is
part of the context. -/
theorem context_build_home_exists (c : Core.Config) (fs : Core.FS)
    (ctx : Core.Context) (fs' : Core.FS)
    (h : c.build fs = .ok (ctx, fs')) :
    ctx.home ∈ fs' ∧ ctx.domain = c.ctx.domain := by
  simp only [Core.Config.build, Except.ok.injEq, Prod.mk.injEq] at h
  obtain ⟨rfl, rfl⟩ := h
  refine ⟨?_, rfl⟩
  unfold Core.createDirAll
  split
  · assumption
  · exact List.mem_cons_self _ _

/-- Witness for the amended C7 on a concrete configuration. -/
theorem context_build_home_exists_witness :
    (⟨"d", ["h", ".sequoia"],
      ["usr", "local", "lib", "sequoia"]⟩ : Core.Context).home ∈
        [["h", ".sequoia"]] ∧
    (⟨"d", ["h", ".sequoia"],
      ["usr", "local", "lib", "sequoia"]⟩ : Core.Context).domain =
      (Core.Context.configure "d" ⟨some ["h"], ["t"]⟩).ctx.domain :=
  context_build_home_exists (Core.Context.configure "d" ⟨some ["h"], ["t"]⟩)
    [] ⟨"d", ["h", ".sequoia"], ["usr", "local", "lib", "sequoia"]⟩
    [["h", ".sequoia"]] (by decide)

/-- Claim C8 (counterexample): the error type of `src/core/src/lib.rs`
has no `Conflict` case at all (and likewise none of the other five
taxonomy cases), so it cannot expose the six-case taxonomy as distinct
outcomes. -/
theorem core_error_no_conflict_cex :
    ¬ ∃ e : Core.Error, e.caseName = "Conflict" := by
  rintro ⟨e, h⟩
  cases e
  simp [Core.Error.caseName] at h

/-- Claim C8 (amended): the core error type exposes exactly one case,
`IoError`, wrapping an I/O error; the six-case taxonomy of the spec is
not present in this type. -/
theorem core_error_single_case (e : Core.Error) :
    e.caseName = "IoError" ∧ ∃ k, e = Core.Error.IoError k := by
  cases e with
  | IoError k => exact ⟨rfl, k, rfl⟩

/-! ## Helper lemmas for the SKESK envelope -/

open Pgp

theorem Pgp.blockE_length (key b : List Nat) :
    (blockE key b).length = b.length := by
  simp [blockE]

theorem Pgp.xor_xor_cancel (x y : Nat) : Nat.xor (Nat.xor x y) y = x := by
  change x ^^^ y ^^^ y = x
  rw [Nat.xor_assoc, Nat.xor_self, Nat.xor_zero]

theorem Pgp.cfbEncAux_nil (key : List Nat) (bs n : Nat) (iv : List Nat) :
    cfbEncAux key bs n iv [] = [] := by
  cases n <;> rfl

theorem Pgp.cfbDecAux_nil (key : List Nat) (bs n : Nat) (iv : List Nat) :
    cfbDecAux key bs n iv [] = [] := by
  cases n <;> rfl

theorem Pgp.zipWith_xor_cancel (a : List Nat) :
    ∀ b : List Nat, a.length ≤ b.length →
      List.zipWith Nat.xor (List.zipWith Nat.xor a b) b = a := by
  induction a with
  | nil => intro b h; simp
  | cons x a ih =>
    intro b h
    cases b with
    | nil => simp at h
    | cons y b =>
      simp only [List.zipWith_cons_cons]
      rw [Pgp.xor_xor_cancel, ih b (by simpa using h)]

theorem Pgp.cfbEncAux_cons (key : List Nat) (bs n : Nat) (iv : List Nat)
    (a : Nat) (rest : List Nat) :
    cfbEncAux key bs (n + 1) iv (a :: rest) =
      List.zipWith Nat.xor ((a :: rest).take bs) (blockE key iv) ++
        cfbEncAux key bs n
          (List.zipWith Nat.xor ((a :: rest).take bs) (blockE key iv))
          ((a :: rest).drop bs) := rfl

theorem Pgp.cfbDecAux_ne_nil (key : List Nat) (bs n : Nat)
    (iv ct : List Nat) (h : ct ≠ []) :
    cfbDecAux key bs (n + 1) iv ct =
      List.zipWith Nat.xor (ct.take bs) (blockE key iv) ++
        cfbDecAux key bs n (ct.take bs) (ct.drop bs) := by
  obtain ⟨c, cs, rfl⟩ := List.exists_cons_of_ne_nil h
  rfl

theorem Pgp.cfbEncAux_length (key : List Nat) (bs : Nat) (hbs : 0 < bs) :
    ∀ fuel iv pt, pt.length ≤ fuel → bs ≤ iv.length →
      (cfbEncAux key bs fuel iv pt).length = pt.length := by
  intro fuel
  induction fuel with
  | zero =>
    intro iv pt h _
    have hnil : pt = [] := List.eq_nil_of_length_eq_zero (Nat.le_zero.mp h)
    subst hnil
    rw [Pgp.cfbEncAux_nil]
  | succ n ih =>
    intro iv pt hf hiv
    cases pt with
    | nil => rw [Pgp.cfbEncAux_nil]
    | cons a rest =>
      rw [Pgp.cfbEncAux_cons]
      have hks : (blockE key iv).length = iv.length := Pgp.blockE_length key iv
      have hct : (List.zipWith Nat.xor ((a :: rest).take bs)
          (blockE key iv)).length = min ((a :: rest).length) bs := by
        rw [List.length_zipWith, hks, List.length_take]
        omega
      by_cases hcase : (a :: rest).length ≤ bs
      · have hdrop : (a :: rest).drop bs = [] := List.drop_eq_nil_of_le hcase
        rw [hdrop]
        have h0 : cfbEncAux key bs n
            (List.zipWith Nat.xor ((a :: rest).take bs) (blockE key iv)) [] =
            [] := Pgp.cfbEncAux_nil _ _ _ _
        rw [h0, List.append_nil, hct]
        omega
      · push_neg at hcase
        have hdl : ((a :: rest).drop bs).length = (a :: rest).length - bs := by
          simp [List.length_drop]
        rw [List.length_append, hct,
          ih (List.zipWith Nat.xor ((a :: rest).take bs) (blockE key iv))
            ((a :: rest).drop bs) (by omega) (by omega)]
        omega

theorem Pgp.cfb_roundtrip (key : List Nat) (bs : Nat) (hbs : 0 < bs) :
    ∀ fuel1 fuel2 iv pt, pt.length ≤ fuel1 → pt.length ≤ fuel2 →
      bs ≤ iv.length →
      cfbDecAux key bs fuel2 iv (cfbEncAux key bs fuel1 iv pt) = pt := by
  intro fuel1
  induction fuel1 with
  | zero =>
    intro fuel2 iv pt h1 _ _
    have hnil : pt = [] := List.eq_nil_of_length_eq_zero (Nat.le_zero.mp h1)
    subst hnil
    rw [Pgp.cfbEncAux_nil, Pgp.cfbDecAux_nil]
  | succ n ih =>
    intro fuel2 iv pt h1 h2 hiv
    cases pt with
    | nil => rw [Pgp.cfbEncAux_nil, Pgp.cfbDecAux_nil]
    | cons a rest =>
      cases fuel2 with
      | zero => simp at h2
      | succ n2 =>
        have hks : (blockE key iv).length = iv.length := Pgp.blockE_length key iv
        rw [Pgp.cfbEncAux_cons]
        set ct := List.zipWith Nat.xor ((a :: rest).take bs) (blockE key iv)
          with hctdef
        have hctlen : ct.length = min ((a :: rest).length) bs := by
          rw [hctdef, List.length_zipWith, hks, List.length_take]
          omega
        by_cases hcase : (a :: rest).length ≤ bs
        · have hdrop : (a :: rest).drop bs = [] := List.drop_eq_nil_of_le hcase
          have htake : (a :: rest).take bs = a :: rest :=
            List.take_of_length_le hcase
          rw [hdrop]
          have h0 : cfbEncAux key bs n ct [] = [] := Pgp.cfbEncAux_nil _ _ _ _
          rw [h0, List.append_nil]
          have hctne : ct ≠ [] := by
            apply List.ne_nil_of_length_pos
            rw [hctlen]
            simp only [List.length_cons]
            omega
          rw [Pgp.cfbDecAux_ne_nil key bs n2 iv ct hctne]
          have htakect : ct.take bs = ct :=
            List.take_of_length_le (by rw [hctlen]; omega)
          have hdropct : ct.drop bs = [] :=
            List.drop_eq_nil_of_le (by rw [hctlen]; omega)
          rw [htakect, hdropct]
          have hdec0 : cfbDecAux key bs n2 ct [] = [] := Pgp.cfbDecAux_nil _ _ _ _
          rw [hdec0, List.append_nil, hctdef, htake]
          exact Pgp.zipWith_xor_cancel (a :: rest) (blockE key iv)
            (by rw [hks]; omega)
        · push_neg at hcase
          have hctlen' : ct.length = bs := by rw [hctlen]; omega
          have hne : ct ++ cfbEncAux key bs n ct ((a :: rest).drop bs) ≠ [] := by
            apply List.ne_nil_of_length_pos
            rw [List.length_append, hctlen']
            omega
          rw [Pgp.cfbDecAux_ne_nil key bs n2 iv _ hne]
          have htakeE : (ct ++ cfbEncAux key bs n ct ((a :: rest).drop bs)).take
              bs = ct := by
            rw [← hctlen']
            exact List.take_left ct _
          have hdropE : (ct ++ cfbEncAux key bs n ct ((a :: rest).drop bs)).drop
              bs = cfbEncAux key bs n ct ((a :: rest).drop bs) := by
            rw [← hctlen']
            exact List.drop_left ct _
          rw [htakeE, hdropE]
          have hdl : ((a :: rest).drop bs).length = (a :: rest).length - bs := by
            simp [List.length_drop]
          have hrec : cfbDecAux key bs n2 ct
              (cfbEncAux key bs n ct ((a :: rest).drop bs)) =
              (a :: rest).drop bs :=
            ih n2 ct ((a :: rest).drop bs) (by omega) (by omega) (by omega)
          rw [hrec]
          have hhd : List.zipWith Nat.xor ct (blockE key iv) =
              (a :: rest).take bs := by
            rw [hctdef]
            exact Pgp.zipWith_xor_cancel ((a :: rest).take bs) (blockE key iv)
              (by rw [hks, List.length_take]; omega)
          rw [hhd, List.take_append_drop]

theorem Pgp.blockSize_eq_16 (a : SymmetricAlgorithm) (bs : Nat)
    (h : a.blockSize = .ok bs) : bs = 16 := by
  cases a <;> simp_all [SymmetricAlgorithm.blockSize]

theorem Pgp.ofU8_toU8 (a : SymmetricAlgorithm) (n : Nat)
    (h : a.keySize = .ok n) : SymmetricAlgorithm.ofU8 a.toU8 = a := by
  cases a with
  | AES128 => rfl
  | AES192 => rfl
  | AES256 => rfl
  | Unknown i => simp [SymmetricAlgorithm.keySize] at h

/-! ## Claim theorems: SKESK envelope -/

/-- Claim C9: for every algorithm, S2K, session key and password for
which `SKESK::new` succeeds, `decrypt` with the same password on the
resulting packet recovers exactly the algorithm identifier and the
session-key octets that were encrypted. -/
theorem skesk_new_decrypt_roundtrip (algo : SymmetricAlgorithm)
    (s2k : S2K) (session_key password : List Nat) (p : SKESK)
    (h : SKESK.new algo s2k session_key password = .ok p) :
    p.decrypt password = .ok (algo, session_key) := by
  cases hks : algo.keySize with
  | error e => simp [SKESK.new, hks] at h
  | ok ksz =>
    cases hdk : s2k.deriveKey password ksz with
    | error e => simp [SKESK.new, hks, hdk] at h
    | ok key =>
      cases hbs : algo.blockSize with
      | error e => simp [SKESK.new, hks, hdk, hbs] at h
      | ok bs =>
        simp only [SKESK.new, hks, hdk, hbs] at h
        injection h with h
        subst h
        have hbs16 : bs = 16 := Pgp.blockSize_eq_16 algo bs hbs
        have hbspos : 0 < bs := by omega
        have hivlen : bs ≤ (List.replicate bs 0).length := by simp
        have hlen : (cfbEncAux key bs (algo.toU8 :: session_key).length
            (List.replicate bs 0) (algo.toU8 :: session_key)).length
            = (algo.toU8 :: session_key).length :=
          Pgp.cfbEncAux_length key bs hbspos _ _ _ (le_refl _) hivlen
        have hplain : cfbDecAux key bs
            (cfbEncAux key bs (algo.toU8 :: session_key).length
              (List.replicate bs 0) (algo.toU8 :: session_key)).length
            (List.replicate bs 0)
            (cfbEncAux key bs (algo.toU8 :: session_key).length
              (List.replicate bs 0) (algo.toU8 :: session_key))
            = algo.toU8 :: session_key := by
          apply Pgp.cfb_roundtrip key bs hbspos
          · exact le_refl _
          · rw [hlen]
          · exact hivlen
        simp only [SKESK.decrypt, SKESK.new, hks, hdk, hbs, cfbEnc, cfbDec]
        rw [if_neg (by rw [hlen]; simp)]
        rw [hplain]
        simp [Pgp.ofU8_toU8 algo ksz hks]

/-- Witness for C9: a concrete AES-128 envelope roundtrips. -/
theorem skesk_new_decrypt_roundtrip_witness :
    ((SKESK.new .AES128 (.Salted 2 [3]) [1, 2] [7]).toOption.getD
        ⟨4, .AES128, .Simple 0, []⟩).decrypt [7] =
      .ok (SymmetricAlgorithm.AES128, [1, 2]) :=
  skesk_new_decrypt_roundtrip .AES128 (.Salted 2 [3]) [1, 2] [7]
    ((SKESK.new .AES128 (.Salted 2 [3]) [1, 2] [7]).toOption.getD
      ⟨4, .AES128, .Simple 0, []⟩) (by decide)

/-- Claim C10 (counterexample): an SKESK packet with empty ESK, a
non-`Simple` S2K (`Salted`) and an unknown symmetric algorithm makes
`decrypt` fail (the key-size lookup fails) instead of succeeding, so it
is not the case that `decrypt` succeeds for every S2K variant other than
`Simple`. -/
theorem skesk_decrypt_empty_esk_cex :
    SKESK.decrypt ⟨4, .Unknown 100, .Salted 2 [3], []⟩ [7] =
      .error .UnsupportedSymmetricAlgorithm := by
  decide

/-- Claim C10 (amended): for an SKESK packet with empty ESK, whenever
the symmetric algorithm's key size is defined and the S2K key derivation
succeeds, `decrypt` fails with `InvalidOperation` if the S2K is the
`Simple` variant, and otherwise succeeds with the packet's own algorithm
paired with the key derived from the password. -/
theorem skesk_decrypt_empty_esk (p : SKESK) (password : List Nat)
    (ksz : Nat) (key : List Nat)
    (he : p.esk = []) (hks : p.symm_algo.keySize = .ok ksz)
    (hd : p.s2k.deriveKey password ksz = .ok key) :
    p.decrypt password =
      (match p.s2k with
       | .Simple _ => .error
           (PError.InvalidOperation "SKESK: Cannot use Simple S2K without ESK")
       | _ => .ok (p.symm_algo, key)) := by
  obtain ⟨v, algo, s2, esk⟩ := p
  simp only at he hks hd
  subst he
  cases s2 with
  | Simple hsh => simp [SKESK.decrypt, hks, hd]
  | Salted hsh salt => simp [SKESK.decrypt, hks, hd]
  | Iterated hsh salt c => simp [SKESK.decrypt, hks, hd]
  | Unknown tag => simp [S2K.deriveKey] at hd

/-- Witness for the amended C10: empty ESK with a `Salted` S2K returns
the derived key. -/
theorem skesk_decrypt_empty_esk_witness :
    SKESK.decrypt ⟨4, .AES128, .Salted 1 [2], []⟩ [7] =
      .ok (SymmetricAlgorithm.AES128,
        ((S2K.Salted 1 [2]).deriveKey [7] 16).toOption.getD []) :=
  skesk_decrypt_empty_esk ⟨4, .AES128, .Salted 1 [2], []⟩ [7] 16
    (((S2K.Salted 1 [2]).deriveKey [7] 16).toOption.getD []) rfl rfl (by decide)
